import Mathlib

/-!
Verification of a single-instrument limit order book (Rust source
`src/main.rs`).  The embedding models:

* `f64` prices as `Px` — either an exact rational (`Px.num`) or an
  unorderable not-a-number value (`Px.nan`); `f64::partial_cmp` becomes the
  `Option Ordering`-valued `Px.pcmp`, and the Rust `>=` on `f64` (false on
  NaN) becomes the Boolean `Px.ge`;
* quantities as exact rationals (`ℚ`), `usize` ids and `u64` timestamps as
  `ℕ`;
* `VecDeque<Order>` as `List Order` with the front at the head;
* the panicking comparator `partial_cmp(..).unwrap()` inside
  `sort_by` by sorting in the `Option` monad (`none` = process abort);
  Rust's `sort_by` is a stable sort, which on a total comparator is modelled
  exactly by stable insertion sort (`insertByM` / `sortByM`);
* the matching loop `match_orders` as the well-founded recursion
  `matchLoop`, returning the mutated sides together with the list of
  reported trades (the `println!` reports);
* the external price fetch of `OrderBook::new` as a parameter: its only
  effect is the initial `current_price`.
-/

namespace OrderBookSpec

/-- Model of an `f64` price: an exact rational, or a not-a-number value that
cannot be ordered. -/
inductive Px where
  | nan : Px
  | num (val : ℚ) : Px
deriving DecidableEq

/-- Model of `f64::partial_cmp`: `none` exactly when one side is NaN. -/
def Px.pcmp : Px → Px → Option Ordering
  | .num a, .num b => some (compare a b)
  | _, _ => none

/-- Model of `>=` on `f64` (`PartialOrd::ge`): false whenever NaN is
involved. -/
def Px.ge : Px → Px → Bool
  | .num a, .num b => decide (b ≤ a)
  | _, _ => false

/-- Strict order on prices: holds only between two orderable numbers. -/
def Px.lt : Px → Px → Prop
  | .num a, .num b => a < b
  | _, _ => False

/-- The rational payload of a price (`0` as a junk value for NaN; only used
under a no-NaN hypothesis). -/
def Px.toQ : Px → ℚ
  | .nan => 0
  | .num a => a

/-- The `Order` struct of the source: immutable id, price, timestamp, and a
mutable remaining quantity. -/
structure Order where
  id : ℕ
  price : Px
  quantity : ℚ
  timestamp : ℕ
deriving DecidableEq

/-- One reported trade: the arguments of the `println!` in `match_orders`
(buy order id, sell order id, the sell order's price, the matched
quantity). -/
structure Trade where
  buy_id : ℕ
  sell_id : ℕ
  price : Px
  quantity : ℚ
deriving DecidableEq

/-- The `OrderBook` struct of the source. -/
structure OrderBook where
  buy_orders : List Order
  sell_orders : List Order
  next_order_id : ℕ
  current_price : ℚ
deriving DecidableEq

/-- Model of `OrderBook::new`: empty sides, id counter 1; the reference price fetched
at construction (or its 45700.0 fallback) is passed in as a parameter. -/
def OrderBook.new (current_price : ℚ) : OrderBook :=
  { buy_orders := [], sell_orders := [], next_order_id := 1,
    current_price := current_price }

/-- The buy-side comparator of `add_order`:
`b.price.partial_cmp(&a.price).unwrap()` (descending by price), ties broken
by `a.timestamp.cmp(&b.timestamp)` (ascending).  `none` models the
`unwrap` panic. -/
def buyCmp (a b : Order) : Option Ordering :=
  match Px.pcmp b.price a.price with
  | some .eq => some (compare a.timestamp b.timestamp)
  | o => o

/-- The sell-side comparator of `add_order`:
`a.price.partial_cmp(&b.price).unwrap()` (ascending by price), ties broken
by timestamp (ascending). -/
def sellCmp (a b : Order) : Option Ordering :=
  match Px.pcmp a.price b.price with
  | some .eq => some (compare a.timestamp b.timestamp)
  | o => o

/-- Stable insertion of `x` into an already sorted list, in the `Option`
monad: `x` goes in front of the first element it compares `lt` to, and after
every element it compares `gt` or `eq` to (stability); a failing comparison
aborts the whole sort, as the panicking `unwrap` does. -/
def insertByM (cmp : Order → Order → Option Ordering) (x : Order) :
    List Order → Option (List Order)
  | [] => some [x]
  | y :: ys =>
    match cmp x y with
    | none => none
    | some .lt => some (x :: y :: ys)
    | some _ => Option.map (fun zs => y :: zs) (insertByM cmp x ys)

/-- Left-to-right insertion pass over the input list. -/
def sortPass (cmp : Order → Order → Option Ordering) (acc : List Order) :
    List Order → Option (List Order)
  | [] => some acc
  | x :: xs =>
    match insertByM cmp x acc with
    | none => none
    | some acc' => sortPass cmp acc' xs

/-- Model of `self.xxx_orders.make_contiguous().sort_by(..)`: a stable sort
whose comparator may panic (`none`).  On a total comparator a stable sort's
output is unique, so stable insertion sort reproduces Rust's `sort_by`
exactly; with an unorderable price present the comparator panics (in both
the model and the source) as soon as that element is compared, which happens
whenever the sequence holds at least two elements. -/
def sortByM (cmp : Order → Order → Option Ordering) (l : List Order) :
    Option (List Order) :=
  sortPass cmp [] l

/-- The loop body of `OrderBook::match_orders`, on the two sides directly.
Returns the remaining buy side, the remaining sell side, and the reported
trades in chronological order.  While both heads exist and
`buy.price >= sell.price`, trade `min` of the quantities at the sell head's
price; a head whose quantity exceeds the traded quantity stays with its
quantity reduced, otherwise it is popped. -/
def matchLoop : List Order → List Order → List Order × List Order × List Trade
  | [], sells => ([], sells, [])
  | b :: bs, [] => (b :: bs, [], [])
  | b :: bs, s :: ss =>
    if Px.ge b.price s.price then
      let r := matchLoop
        (if min b.quantity s.quantity < b.quantity then
          { b with quantity := b.quantity - min b.quantity s.quantity } :: bs
        else bs)
        (if min b.quantity s.quantity < s.quantity then
          { s with quantity := s.quantity - min b.quantity s.quantity } :: ss
        else ss)
      (r.1, r.2.1, { buy_id := b.id, sell_id := s.id, price := s.price,
                     quantity := min b.quantity s.quantity } :: r.2.2)
    else (b :: bs, s :: ss, [])
termination_by buys sells => buys.length + sells.length
decreasing_by
  simp only [List.length_cons]
  split_ifs with h1 h2
  · exact absurd (lt_min h1 h2) (lt_irrefl _)
  · simp only [List.length_cons]; omega
  · simp only [List.length_cons]; omega
  · omega

/-- Model of `OrderBook::match_orders`: run the loop on the two sides, also returning
the reported trades. -/
def OrderBook.matchOrders (ob : OrderBook) : OrderBook × List Trade :=
  let r := matchLoop ob.buy_orders ob.sell_orders
  ({ ob with buy_orders := r.1, sell_orders := r.2.1 }, r.2.2)

/-- Model of `OrderBook::add_order`: allocate the next id, push the new order at the
back of its side, re-sort that side (a `none` result models the process
abort of the panicking comparator), then run the matching pass.  Returns the
mutated book and the reported trades. -/
def OrderBook.add_order (ob : OrderBook) (price : Px) (quantity : ℚ)
    (is_buy : Bool) (timestamp : ℕ) : Option (OrderBook × List Trade) :=
  let order : Order := { id := ob.next_order_id, price := price,
                         quantity := quantity, timestamp := timestamp }
  if is_buy then
    match sortByM buyCmp (ob.buy_orders ++ [order]) with
    | none => none
    | some sorted =>
      some (OrderBook.matchOrders
        { ob with buy_orders := sorted, next_order_id := ob.next_order_id + 1 })
  else
    match sortByM sellCmp (ob.sell_orders ++ [order]) with
    | none => none
    | some sorted =>
      some (OrderBook.matchOrders
        { ob with sell_orders := sorted, next_order_id := ob.next_order_id + 1 })

/-- Overwrite the quantity of the first order with the given id; `none` when
no such order exists in the list. -/
def setQty (order_id : ℕ) (new_quantity : ℚ) :
    List Order → Option (List Order)
  | [] => none
  | o :: os =>
    if o.id = order_id then some ({ o with quantity := new_quantity } :: os)
    else Option.map (fun os' => o :: os') (setQty order_id new_quantity os)

/-- Model of `OrderBook::modify_order`: scan `buy_orders` then `sell_orders` (the
`chain` of the source), overwrite the quantity of the first order whose id
matches, and stop; when no order matches, nothing changes. -/
def OrderBook.modify_order (ob : OrderBook) (order_id : ℕ)
    (new_quantity : ℚ) : OrderBook :=
  match setQty order_id new_quantity ob.buy_orders with
  | some buys => { ob with buy_orders := buys }
  | none =>
    match setQty order_id new_quantity ob.sell_orders with
    | some sells => { ob with sell_orders := sells }
    | none => ob

/-- One submission request: the arguments of a single `add_order` call, with
an orderable (finite) price. -/
structure Sub where
  price : ℚ
  quantity : ℚ
  is_buy : Bool
  timestamp : ℕ
deriving DecidableEq

/-- A valid submission: positive price and positive quantity. -/
def Sub.valid (s : Sub) : Prop := 0 < s.price ∧ 0 < s.quantity

instance (s : Sub) : Decidable s.valid := by
  unfold Sub.valid
  infer_instance

/-- Run a sequence of submissions through `add_order`; `none` when some call
aborts. -/
def runSubs (ob : OrderBook) : List Sub → Option OrderBook
  | [] => some ob
  | s :: rest =>
    match ob.add_order (.num s.price) s.quantity s.is_buy s.timestamp with
    | none => none
    | some (ob', _) => runSubs ob' rest

/-! ### Proof infrastructure: total counterparts of the fallible sort -/

/-- Total version of `buyCmp` on orderable prices (via the rational
payload). -/
def buyCmpT (a b : Order) : Ordering :=
  match compare b.price.toQ a.price.toQ with
  | .eq => compare a.timestamp b.timestamp
  | o => o

/-- Total version of `sellCmp` on orderable prices. -/
def sellCmpT (a b : Order) : Ordering :=
  match compare a.price.toQ b.price.toQ with
  | .eq => compare a.timestamp b.timestamp
  | o => o

/-- Total stable insertion. -/
def insertTot (cmp : Order → Order → Ordering) (x : Order) :
    List Order → List Order
  | [] => [x]
  | y :: ys => if cmp x y = .lt then x :: y :: ys else y :: insertTot cmp x ys

/-- Total left-to-right insertion pass. -/
def sortTotAux (cmp : Order → Order → Ordering) (acc : List Order) :
    List Order → List Order
  | [] => acc
  | x :: xs => sortTotAux cmp (insertTot cmp x acc) xs

/-- Total stable insertion sort. -/
def sortTot (cmp : Order → Order → Ordering) (l : List Order) : List Order :=
  sortTotAux cmp [] l

/-- Price, timestamp and id are all that ordering and identity depend on;
quantity updates leave this key unchanged. -/
def okey (o : Order) : ℕ × Px × ℕ := (o.id, o.price, o.timestamp)

/-- Strict priority order of the buy side: higher price first, then earlier
timestamp, then earlier id (the stable tie-break). -/
def buyRel (a b : Order) : Prop :=
  b.price.toQ < a.price.toQ ∨ (a.price.toQ = b.price.toQ ∧
    (a.timestamp < b.timestamp ∨ (a.timestamp = b.timestamp ∧ a.id < b.id)))

/-- Strict priority order of the sell side: lower price first, then earlier
timestamp, then earlier id. -/
def sellRel (a b : Order) : Prop :=
  a.price.toQ < b.price.toQ ∨ (a.price.toQ = b.price.toQ ∧
    (a.timestamp < b.timestamp ∨ (a.timestamp = b.timestamp ∧ a.id < b.id)))

lemma matchOrdering_lt {o t : Ordering} :
    (match o with | .eq => t | x => x) = .lt ↔ o = .lt ∨ (o = .eq ∧ t = .lt) := by
  cases o <;> simp

lemma matchOrdering_eq {o t : Ordering} :
    (match o with | .eq => t | x => x) = .eq ↔ o = .eq ∧ t = .eq := by
  cases o <;> simp

lemma matchOrdering_gt {o t : Ordering} :
    (match o with | .eq => t | x => x) = .gt ↔ o = .gt ∨ (o = .eq ∧ t = .gt) := by
  cases o <;> simp

lemma buyCmpT_lt {a b : Order} : buyCmpT a b = .lt ↔
    (b.price.toQ < a.price.toQ ∨
      (a.price.toQ = b.price.toQ ∧ a.timestamp < b.timestamp)) := by
  unfold buyCmpT
  rw [matchOrdering_lt, compare_lt_iff_lt, compare_lt_iff_lt,
    compare_eq_iff_eq, eq_comm]

lemma buyCmpT_eq {a b : Order} : buyCmpT a b = .eq ↔
    (a.price.toQ = b.price.toQ ∧ a.timestamp = b.timestamp) := by
  unfold buyCmpT
  rw [matchOrdering_eq, compare_eq_iff_eq, compare_eq_iff_eq, eq_comm]

lemma buyCmpT_gt {a b : Order} : buyCmpT a b = .gt ↔
    (a.price.toQ < b.price.toQ ∨
      (a.price.toQ = b.price.toQ ∧ b.timestamp < a.timestamp)) := by
  unfold buyCmpT
  rw [matchOrdering_gt, compare_gt_iff_gt, compare_gt_iff_gt,
    compare_eq_iff_eq, eq_comm]

lemma sellCmpT_lt {a b : Order} : sellCmpT a b = .lt ↔
    (a.price.toQ < b.price.toQ ∨
      (a.price.toQ = b.price.toQ ∧ a.timestamp < b.timestamp)) := by
  unfold sellCmpT
  rw [matchOrdering_lt, compare_lt_iff_lt, compare_lt_iff_lt,
    compare_eq_iff_eq]

lemma sellCmpT_eq {a b : Order} : sellCmpT a b = .eq ↔
    (a.price.toQ = b.price.toQ ∧ a.timestamp = b.timestamp) := by
  unfold sellCmpT
  rw [matchOrdering_eq, compare_eq_iff_eq, compare_eq_iff_eq]

lemma sellCmpT_gt {a b : Order} : sellCmpT a b = .gt ↔
    (b.price.toQ < a.price.toQ ∨
      (a.price.toQ = b.price.toQ ∧ b.timestamp < a.timestamp)) := by
  unfold sellCmpT
  rw [matchOrdering_gt, compare_gt_iff_gt, compare_gt_iff_gt,
    compare_eq_iff_eq]

lemma buyRel_trans {a b c : Order} (h1 : buyRel a b) (h2 : buyRel b c) :
    buyRel a c := by
  unfold buyRel at *
  rcases h1 with h1 | ⟨hp1, h1⟩
  · rcases h2 with h2 | ⟨hp2, _⟩
    · exact Or.inl (h2.trans h1)
    · exact Or.inl (hp2 ▸ h1)
  · rcases h2 with h2 | ⟨hp2, h2⟩
    · exact Or.inl (hp1 ▸ h2)
    · refine Or.inr ⟨hp1.trans hp2, ?_⟩
      rcases h1 with h1 | ⟨ht1, h1⟩
      · rcases h2 with h2 | ⟨ht2, _⟩
        · exact Or.inl (h1.trans h2)
        · exact Or.inl (ht2 ▸ h1)
      · rcases h2 with h2 | ⟨ht2, h2⟩
        · exact Or.inl (ht1 ▸ h2)
        · exact Or.inr ⟨ht1.trans ht2, h1.trans h2⟩

lemma sellRel_trans {a b c : Order} (h1 : sellRel a b) (h2 : sellRel b c) :
    sellRel a c := by
  unfold sellRel at *
  rcases h1 with h1 | ⟨hp1, h1⟩
  · rcases h2 with h2 | ⟨hp2, _⟩
    · exact Or.inl (h1.trans h2)
    · exact Or.inl (hp2 ▸ h1)
  · rcases h2 with h2 | ⟨hp2, h2⟩
    · exact Or.inl (hp1 ▸ h2)
    · refine Or.inr ⟨hp1.trans hp2, ?_⟩
      rcases h1 with h1 | ⟨ht1, h1⟩
      · rcases h2 with h2 | ⟨ht2, _⟩
        · exact Or.inl (h1.trans h2)
        · exact Or.inl (ht2 ▸ h1)
      · rcases h2 with h2 | ⟨ht2, h2⟩
        · exact Or.inl (ht1 ▸ h2)
        · exact Or.inr ⟨ht1.trans ht2, h1.trans h2⟩

lemma buyCmpT_lt_buyRel {a b : Order} (h : buyCmpT a b = .lt) : buyRel a b := by
  rcases buyCmpT_lt.mp h with h | ⟨hp, ht⟩
  · exact Or.inl h
  · exact Or.inr ⟨hp, Or.inl ht⟩

lemma buyCmpT_gt_buyRel {a b : Order} (h : buyCmpT a b = .gt) : buyRel b a := by
  rcases buyCmpT_gt.mp h with h | ⟨hp, ht⟩
  · exact Or.inl h
  · exact Or.inr ⟨hp.symm, Or.inl ht⟩

lemma sellCmpT_lt_sellRel {a b : Order} (h : sellCmpT a b = .lt) :
    sellRel a b := by
  rcases sellCmpT_lt.mp h with h | ⟨hp, ht⟩
  · exact Or.inl h
  · exact Or.inr ⟨hp, Or.inl ht⟩

lemma sellCmpT_gt_sellRel {a b : Order} (h : sellCmpT a b = .gt) :
    sellRel b a := by
  rcases sellCmpT_gt.mp h with h | ⟨hp, ht⟩
  · exact Or.inl h
  · exact Or.inr ⟨hp.symm, Or.inl ht⟩

lemma insertTot_mem {cmp : Order → Order → Ordering} {x a : Order}
    {l : List Order} : a ∈ insertTot cmp x l ↔ a = x ∨ a ∈ l := by
  induction l with
  | nil => simp [insertTot]
  | cons y ys ih =>
    by_cases h : cmp x y = .lt
    · simp [insertTot, h]
    · simp [insertTot, h, ih]
      tauto

lemma insertTot_length {cmp : Order → Order → Ordering} {x : Order}
    {l : List Order} : (insertTot cmp x l).length = l.length + 1 := by
  induction l with
  | nil => rfl
  | cons y ys ih =>
    by_cases h : cmp x y = .lt <;> simp [insertTot, h, ih]

lemma insertTot_pairwise {cmp : Order → Order → Ordering}
    {R : Order → Order → Prop} {x : Order} {l : List Order}
    (htrans : ∀ {a b c : Order}, R a b → R b c → R a c)
    (h1 : ∀ a b : Order, cmp a b = .lt → R a b)
    (hx : ∀ y ∈ l, ¬cmp x y = .lt → R y x)
    (hl : l.Pairwise R) : (insertTot cmp x l).Pairwise R := by
  induction l with
  | nil => simp [insertTot]
  | cons y ys ih =>
    rcases List.pairwise_cons.mp hl with ⟨hy, hys⟩
    by_cases h : cmp x y = .lt
    · rw [insertTot, if_pos h]
      refine List.pairwise_cons.mpr ⟨?_, hl⟩
      intro z hz
      rcases List.mem_cons.mp hz with rfl | hz
      · exact h1 x z h
      · exact htrans (h1 x y h) (hy z hz)
    · rw [insertTot, if_neg h]
      refine List.pairwise_cons.mpr ⟨?_, ?_⟩
      · intro z hz
        rcases insertTot_mem.mp hz with rfl | hz
        · exact hx y (List.mem_cons_self y ys) h
        · exact hy z hz
      · exact ih (fun y' hy' hc => hx y' (List.mem_cons_of_mem _ hy') hc) hys

lemma sortTotAux_mem {cmp : Order → Order → Ordering} {a : Order} :
    ∀ {l acc : List Order}, a ∈ sortTotAux cmp acc l ↔ a ∈ acc ∨ a ∈ l := by
  intro l
  induction l with
  | nil => intro acc; simp [sortTotAux]
  | cons x xs ih =>
    intro acc
    rw [sortTotAux, ih, insertTot_mem]
    simp
    tauto

lemma sortTotAux_length {cmp : Order → Order → Ordering} :
    ∀ {l acc : List Order},
      (sortTotAux cmp acc l).length = acc.length + l.length := by
  intro l
  induction l with
  | nil => intro acc; simp [sortTotAux]
  | cons x xs ih =>
    intro acc
    rw [sortTotAux, ih, insertTot_length]
    simp
    omega

lemma sortTotAux_pairwise {cmp : Order → Order → Ordering}
    {R : Order → Order → Prop}
    (htrans : ∀ {a b c : Order}, R a b → R b c → R a c)
    (h1 : ∀ a b : Order, cmp a b = .lt → R a b) :
    ∀ {l acc : List Order}, acc.Pairwise R →
      (∀ y ∈ acc, ∀ x ∈ l, ¬cmp x y = .lt → R y x) →
      l.Pairwise (fun a b => ¬cmp b a = .lt → R a b) →
      (sortTotAux cmp acc l).Pairwise R := by
  intro l
  induction l with
  | nil => intro acc hacc _ _; simpa [sortTotAux] using hacc
  | cons x xs ih =>
    intro acc hacc hcross hl
    rcases List.pairwise_cons.mp hl with ⟨hxl, hxs⟩
    rw [sortTotAux]
    refine ih ?_ ?_ hxs
    · exact insertTot_pairwise htrans h1
        (fun y hy hc => hcross y hy x (List.mem_cons_self x xs) hc) hacc
    · intro y hy z hz hc
      rcases insertTot_mem.mp hy with rfl | hy
      · exact hxl z hz hc
      · exact hcross y hy z (List.mem_cons_of_mem _ hz) hc

lemma insertByM_eq_insertTot {cmpO : Order → Order → Option Ordering}
    {cmpT : Order → Order → Ordering} {P : Order → Prop}
    (hc : ∀ a b : Order, P a → P b → cmpO a b = some (cmpT a b))
    {x : Order} {l : List Order} (hx : P x) (hl : ∀ y ∈ l, P y) :
    insertByM cmpO x l = some (insertTot cmpT x l) := by
  induction l with
  | nil => rfl
  | cons y ys ih =>
    have hcy : cmpO x y = some (cmpT x y) :=
      hc x y hx (hl y (List.mem_cons_self y ys))
    have ih' := ih (fun z hz => hl z (List.mem_cons_of_mem _ hz))
    cases h : cmpT x y with
    | lt => rw [insertByM, hcy, h, insertTot, if_pos h]
    | eq =>
      rw [insertByM, hcy, h, insertTot, if_neg (by simp [h]), ih']
      rfl
    | gt =>
      rw [insertByM, hcy, h, insertTot, if_neg (by simp [h]), ih']
      rfl

lemma sortPass_eq_sortTotAux {cmpO : Order → Order → Option Ordering}
    {cmpT : Order → Order → Ordering} {P : Order → Prop}
    (hc : ∀ a b : Order, P a → P b → cmpO a b = some (cmpT a b)) :
    ∀ {l acc : List Order}, (∀ y ∈ l, P y) → (∀ y ∈ acc, P y) →
      sortPass cmpO acc l = some (sortTotAux cmpT acc l) := by
  intro l
  induction l with
  | nil => intro acc _ _; rfl
  | cons x xs ih =>
    intro acc hl hacc
    have hx : P x := hl x (List.mem_cons_self x xs)
    have h1 : insertByM cmpO x acc = some (insertTot cmpT x acc) :=
      insertByM_eq_insertTot hc hx hacc
    rw [sortPass, h1, sortTotAux]
    exact ih (fun y hy => hl y (List.mem_cons_of_mem _ hy))
      (fun y hy => by
        rcases insertTot_mem.mp hy with rfl | hy
        · exact hx
        · exact hacc y hy)

lemma sortByM_eq_sortTot {cmpO : Order → Order → Option Ordering}
    {cmpT : Order → Order → Ordering} {P : Order → Prop}
    (hc : ∀ a b : Order, P a → P b → cmpO a b = some (cmpT a b))
    {l : List Order} (hl : ∀ y ∈ l, P y) :
    sortByM cmpO l = some (sortTot cmpT l) :=
  sortPass_eq_sortTotAux hc hl (by intro y hy; cases hy)

lemma sortTot_mem {cmp : Order → Order → Ordering} {a : Order}
    {l : List Order} : a ∈ sortTot cmp l ↔ a ∈ l := by
  rw [sortTot, sortTotAux_mem]
  simp

lemma sortTot_length {cmp : Order → Order → Ordering} {l : List Order} :
    (sortTot cmp l).length = l.length := by
  rw [sortTot, sortTotAux_length]
  simp

/-! ### Behaviour of the sort on an unorderable price -/

lemma Px.pcmp_nan_right (p : Px) : Px.pcmp p .nan = none := by
  cases p <;> rfl

lemma Px.pcmp_nan_left (p : Px) : Px.pcmp .nan p = none := by
  cases p <;> rfl

lemma buyCmp_of_nan {x : Order} (h : x.price = .nan) (y : Order) :
    buyCmp x y = none := by
  unfold buyCmp
  rw [h, Px.pcmp_nan_right]

lemma sellCmp_of_nan {x : Order} (h : x.price = .nan) (y : Order) :
    sellCmp x y = none := by
  unfold sellCmp
  rw [h, Px.pcmp_nan_left]

lemma insertByM_none_of_nan {cmpO : Order → Order → Option Ordering}
    {x : Order} (hnan : ∀ y, cmpO x y = none) {l : List Order}
    (hl : l ≠ []) : insertByM cmpO x l = none := by
  cases l with
  | nil => exact absurd rfl hl
  | cons y ys => rw [insertByM, hnan y]

lemma insertByM_length {cmpO : Order → Order → Option Ordering} {x : Order} :
    ∀ {l l' : List Order}, insertByM cmpO x l = some l' →
      l'.length = l.length + 1 := by
  intro l
  induction l with
  | nil =>
    intro l' h
    rw [insertByM] at h
    cases h
    rfl
  | cons y ys ih =>
    intro l' h
    rw [insertByM] at h
    cases hc : cmpO x y with
    | none => rw [hc] at h; cases h
    | some o =>
      rw [hc] at h
      cases o with
      | lt =>
        cases h
        simp
      | eq =>
        rcases Option.map_eq_some'.mp h with ⟨zs, hzs, rfl⟩
        simp [ih hzs]
      | gt =>
        rcases Option.map_eq_some'.mp h with ⟨zs, hzs, rfl⟩
        simp [ih hzs]

lemma matchLoop_buy_keys (bs ss : List Order) :
    ((matchLoop bs ss).1.map okey).Sublist (bs.map okey) := by
  induction bs, ss using matchLoop.induct with
  | case1 sells => simp [matchLoop]
  | case2 b bs => simp [matchLoop]
  | case3 b bs s ss hge ih =>
    rw [matchLoop, if_pos hge]
    dsimp only at ih ⊢
    refine List.Sublist.trans ih ?_
    split_ifs with h
    · exact List.Sublist.refl _
    · exact List.sublist_cons_self _ _
  | case4 b bs s ss hge =>
    rw [matchLoop, if_neg hge]

lemma matchLoop_sell_keys (bs ss : List Order) :
    ((matchLoop bs ss).2.1.map okey).Sublist (ss.map okey) := by
  induction bs, ss using matchLoop.induct with
  | case1 sells => simp [matchLoop]
  | case2 b bs => simp [matchLoop]
  | case3 b bs s ss hge ih =>
    rw [matchLoop, if_pos hge]
    dsimp only at ih ⊢
    refine List.Sublist.trans ih ?_
    split_ifs with h
    · exact List.Sublist.refl _
    · exact List.sublist_cons_self _ _
  | case4 b bs s ss hge =>
    rw [matchLoop, if_neg hge]

lemma matchLoop_noCross (bs ss : List Order) :
    ∀ b' s', ((matchLoop bs ss).1).head? = some b' →
      ((matchLoop bs ss).2.1).head? = some s' →
      Px.ge b'.price s'.price = false := by
  induction bs, ss using matchLoop.induct with
  | case1 sells =>
    intro b' s' hb _
    simp [matchLoop] at hb
  | case2 b bs =>
    intro b' s' _ hs
    simp [matchLoop] at hs
  | case3 b bs s ss hge ih =>
    intro b' s' hb hs
    rw [matchLoop, if_pos hge] at hb hs
    dsimp only at ih hb hs
    exact ih b' s' hb hs
  | case4 b bs s ss hge =>
    intro b' s' hb hs
    rw [matchLoop, if_neg hge] at hb hs
    dsimp only at hb hs
    simp only [List.head?_cons, Option.some.injEq] at hb hs
    subst hb
    subst hs
    exact Bool.eq_false_iff.mpr hge

/-- Total quantity resting in a list of orders. -/
def qtySum (l : List Order) : ℚ := (l.map Order.quantity).sum

/-- Total quantity of a list of reported trades. -/
def tradeSum (l : List Trade) : ℚ := (l.map Trade.quantity).sum

lemma matchLoop_qty (bs ss : List Order) :
    qtySum bs = qtySum (matchLoop bs ss).1 + tradeSum (matchLoop bs ss).2.2 ∧
      qtySum ss =
        qtySum (matchLoop bs ss).2.1 + tradeSum (matchLoop bs ss).2.2 := by
  induction bs, ss using matchLoop.induct with
  | case1 sells => simp [matchLoop, qtySum, tradeSum]
  | case2 b bs => simp [matchLoop, qtySum, tradeSum]
  | case3 b bs s ss hge ih =>
    rw [matchLoop, if_pos hge]
    dsimp only at ih ⊢
    obtain ⟨ih1, ih2⟩ := ih
    have hbq := min_le_left b.quantity s.quantity
    have hsq := min_le_right b.quantity s.quantity
    by_cases h1 : min b.quantity s.quantity < b.quantity <;>
      by_cases h2 : min b.quantity s.quantity < s.quantity
    · exact absurd (lt_min h1 h2) (lt_irrefl _)
    all_goals
      simp only [h1, h2, if_true, if_false, dite_true, dite_false,
        ite_true, ite_false, eq_self_iff_true] at ih1 ih2 ⊢
    all_goals
      constructor
    all_goals
      simp only [qtySum, tradeSum, List.map_cons, List.sum_cons] at ih1 ih2 ⊢
    all_goals linarith
  | case4 b bs s ss hge =>
    rw [matchLoop, if_neg hge]
    simp [tradeSum]

lemma matchLoop_len (bs ss : List Order) :
    (matchLoop bs ss).1.length + (matchLoop bs ss).2.1.length +
      (matchLoop bs ss).2.2.length ≤ bs.length + ss.length := by
  induction bs, ss using matchLoop.induct with
  | case1 sells => simp [matchLoop]
  | case2 b bs => simp [matchLoop]
  | case3 b bs s ss hge ih =>
    rw [matchLoop, if_pos hge]
    dsimp only at ih ⊢
    by_cases h1 : min b.quantity s.quantity < b.quantity <;>
      by_cases h2 : min b.quantity s.quantity < s.quantity
    · exact absurd (lt_min h1 h2) (lt_irrefl _)
    all_goals
      simp only [h1, h2, if_true, if_false, dite_true, dite_false,
        ite_true, ite_false, List.length_cons] at ih ⊢
    all_goals omega
  | case4 b bs s ss hge =>
    rw [matchLoop, if_neg hge]
    simp

lemma sortPass_none_append_nan {cmpO : Order → Order → Option Ordering}
    {xnan : Order} (hnan : ∀ y, cmpO xnan y = none) :
    ∀ {l acc : List Order}, 1 ≤ acc.length + l.length →
      sortPass cmpO acc (l ++ [xnan]) = none := by
  intro l
  induction l with
  | nil =>
    intro acc hlen
    have hne : acc ≠ [] := by
      intro h
      subst h
      simp at hlen
    rw [List.nil_append, sortPass, insertByM_none_of_nan hnan hne]
  | cons x xs ih =>
    intro acc hlen
    rw [List.cons_append, sortPass]
    cases h : insertByM cmpO x acc with
    | none => rfl
    | some acc' =>
      have hlen' := insertByM_length h
      exact ih (by omega)

/-- All prices in the list are orderable. -/
def AllNum (l : List Order) : Prop := ∀ o ∈ l, o.price ≠ Px.nan

lemma Px.ne_nan_iff {p : Px} : p ≠ .nan ↔ ∃ q, p = .num q := by
  cases p <;> simp

lemma buyCmp_total {a b : Order} (ha : a.price ≠ .nan) (hb : b.price ≠ .nan) :
    buyCmp a b = some (buyCmpT a b) := by
  rcases Px.ne_nan_iff.mp ha with ⟨p, hp⟩
  rcases Px.ne_nan_iff.mp hb with ⟨r, hr⟩
  unfold buyCmp buyCmpT Px.pcmp
  rw [hp, hr]
  dsimp [Px.toQ]
  cases compare r p <;> rfl

lemma sellCmp_total {a b : Order} (ha : a.price ≠ .nan) (hb : b.price ≠ .nan) :
    sellCmp a b = some (sellCmpT a b) := by
  rcases Px.ne_nan_iff.mp ha with ⟨p, hp⟩
  rcases Px.ne_nan_iff.mp hb with ⟨r, hr⟩
  unfold sellCmp sellCmpT Px.pcmp
  rw [hp, hr]
  dsimp [Px.toQ]
  cases compare p r <;> rfl

lemma sortTot_pairwise {cmp : Order → Order → Ordering}
    {R : Order → Order → Prop} {l : List Order}
    (htrans : ∀ {a b c : Order}, R a b → R b c → R a c)
    (h1 : ∀ a b : Order, cmp a b = .lt → R a b)
    (hl : l.Pairwise (fun a b => ¬cmp b a = .lt → R a b)) :
    (sortTot cmp l).Pairwise R := by
  rw [sortTot]
  exact @sortTotAux_pairwise cmp R htrans h1 l []
    List.Pairwise.nil (fun y hy x hx hc => (List.not_mem_nil y hy).elim) hl

lemma okey_ext {a b : Order} (h : okey a = okey b) :
    a.id = b.id ∧ a.price = b.price ∧ a.timestamp = b.timestamp := by
  simpa [okey, Prod.ext_iff] using h

lemma mem_of_keys_sublist {l₁ l₂ : List Order}
    (h : (l₁.map okey).Sublist (l₂.map okey)) :
    ∀ o ∈ l₁, ∃ o' ∈ l₂, o'.id = o.id ∧ o'.price = o.price ∧
      o'.timestamp = o.timestamp := by
  intro o ho
  have hmem : okey o ∈ l₂.map okey :=
    h.subset (List.mem_map_of_mem okey ho)
  rcases List.mem_map.mp hmem with ⟨o', ho', hk⟩
  exact ⟨o', ho', okey_ext hk⟩

lemma pairwise_of_keys_sublist {S : (ℕ × Px × ℕ) → (ℕ × Px × ℕ) → Prop}
    {l₁ l₂ : List Order} (h : (l₁.map okey).Sublist (l₂.map okey))
    (h₂ : l₂.Pairwise (fun a b => S (okey a) (okey b))) :
    l₁.Pairwise (fun a b => S (okey a) (okey b)) := by
  have h₂' : (l₂.map okey).Pairwise S := (List.pairwise_map).mpr h₂
  exact (List.pairwise_map).mp (h₂'.sublist h)



lemma add_order_buy_eq {ob : OrderBook} {p q : ℚ} {ts : ℕ}
    (hb : AllNum ob.buy_orders) :
    ob.add_order (.num p) q true ts =
      some (OrderBook.matchOrders
        { ob with
            buy_orders := sortTot buyCmpT (ob.buy_orders ++
              [{ id := ob.next_order_id, price := .num p, quantity := q,
                 timestamp := ts }]),
            next_order_id := ob.next_order_id + 1 }) := by
  have hnum : ∀ y ∈ ob.buy_orders ++
      [({ id := ob.next_order_id, price := .num p, quantity := q,
          timestamp := ts } : Order)], y.price ≠ Px.nan := by
    intro y hy
    rcases List.mem_append.mp hy with hy | hy
    · exact hb y hy
    · rw [List.mem_singleton.mp hy]
      simp
  have hsort := @sortByM_eq_sortTot buyCmp buyCmpT
    (fun o => o.price ≠ Px.nan) (fun a b ha hb => buyCmp_total ha hb) _ hnum
  simp only [OrderBook.add_order, if_true]
  rw [hsort]

lemma add_order_sell_eq {ob : OrderBook} {p q : ℚ} {ts : ℕ}
    (hs : AllNum ob.sell_orders) :
    ob.add_order (.num p) q false ts =
      some (OrderBook.matchOrders
        { ob with
            sell_orders := sortTot sellCmpT (ob.sell_orders ++
              [{ id := ob.next_order_id, price := .num p, quantity := q,
                 timestamp := ts }]),
            next_order_id := ob.next_order_id + 1 }) := by
  have hnum : ∀ y ∈ ob.sell_orders ++
      [({ id := ob.next_order_id, price := .num p, quantity := q,
          timestamp := ts } : Order)], y.price ≠ Px.nan := by
    intro y hy
    rcases List.mem_append.mp hy with hy | hy
    · exact hs y hy
    · rw [List.mem_singleton.mp hy]
      simp
  have hsort := @sortByM_eq_sortTot sellCmp sellCmpT
    (fun o => o.price ≠ Px.nan) (fun a b ha hb => sellCmp_total ha hb) _ hnum
  simp only [OrderBook.add_order, Bool.false_eq_true, if_false]
  rw [hsort]



/-- The reachable-state invariant: orderable prices, both sides strictly
sorted by price-time-id priority, all resting ids below the allocator. -/
structure Inv (ob : OrderBook) : Prop where
  bnum : AllNum ob.buy_orders
  snum : AllNum ob.sell_orders
  bsorted : ob.buy_orders.Pairwise buyRel
  ssorted : ob.sell_orders.Pairwise sellRel
  bid : ∀ o ∈ ob.buy_orders, o.id < ob.next_order_id
  sid : ∀ o ∈ ob.sell_orders, o.id < ob.next_order_id

/-- Relation `buyRel` read off the key triple. -/
def buyRelK (x y : ℕ × Px × ℕ) : Prop :=
  y.2.1.toQ < x.2.1.toQ ∨ (x.2.1.toQ = y.2.1.toQ ∧
    (x.2.2 < y.2.2 ∨ (x.2.2 = y.2.2 ∧ x.1 < y.1)))

/-- Relation `sellRel` read off the key triple. -/
def sellRelK (x y : ℕ × Px × ℕ) : Prop :=
  x.2.1.toQ < y.2.1.toQ ∨ (x.2.1.toQ = y.2.1.toQ ∧
    (x.2.2 < y.2.2 ∨ (x.2.2 = y.2.2 ∧ x.1 < y.1)))

lemma pairwise_buyRel_iff {l : List Order} :
    l.Pairwise buyRel ↔ l.Pairwise (fun a b => buyRelK (okey a) (okey b)) :=
  Iff.rfl

lemma pairwise_sellRel_iff {l : List Order} :
    l.Pairwise sellRel ↔ l.Pairwise (fun a b => sellRelK (okey a) (okey b)) :=
  Iff.rfl

lemma matchOrders_inv {ob : OrderBook} (hI : Inv ob) :
    Inv (OrderBook.matchOrders ob).1 := by
  have hbk := matchLoop_buy_keys ob.buy_orders ob.sell_orders
  have hsk := matchLoop_sell_keys ob.buy_orders ob.sell_orders
  refine ⟨?_, ?_, ?_, ?_, ?_, ?_⟩
  · intro o ho
    obtain ⟨o', ho', _, hp, _⟩ := mem_of_keys_sublist hbk o ho
    rw [← hp]
    exact hI.bnum o' ho'
  · intro o ho
    obtain ⟨o', ho', _, hp, _⟩ := mem_of_keys_sublist hsk o ho
    rw [← hp]
    exact hI.snum o' ho'
  · exact pairwise_buyRel_iff.mpr
      (pairwise_of_keys_sublist hbk (pairwise_buyRel_iff.mp hI.bsorted))
  · exact pairwise_sellRel_iff.mpr
      (pairwise_of_keys_sublist hsk (pairwise_sellRel_iff.mp hI.ssorted))
  · intro o ho
    obtain ⟨o', ho', hid, _, _⟩ := mem_of_keys_sublist hbk o ho
    rw [← hid]
    exact hI.bid o' ho'
  · intro o ho
    obtain ⟨o', ho', hid, _, _⟩ := mem_of_keys_sublist hsk o ho
    rw [← hid]
    exact hI.sid o' ho'

lemma buy_insert_sorted {l : List Order} {n : ℕ} {p q : ℚ} {ts : ℕ}
    (hsort : l.Pairwise buyRel) (hid : ∀ o ∈ l, o.id < n) :
    (sortTot buyCmpT
      (l ++ [{ id := n, price := .num p, quantity := q,
               timestamp := ts }])).Pairwise buyRel := by
  refine sortTot_pairwise (fun h1 h2 => buyRel_trans h1 h2)
    (fun a b h => buyCmpT_lt_buyRel h) ?_
  rw [List.pairwise_append]
  refine ⟨?_, List.pairwise_singleton _ _, ?_⟩
  · refine hsort.imp ?_
    intro a b h _
    exact h
  intro a ha b hb
  rw [List.mem_singleton.mp hb]
  intro hne
  cases hc : buyCmpT ⟨n, .num p, q, ts⟩ a with
  | lt => exact absurd hc hne
  | eq =>
    rcases buyCmpT_eq.mp hc with ⟨hp, ht⟩
    exact Or.inr ⟨hp.symm, Or.inr ⟨ht.symm, hid a ha⟩⟩
  | gt => exact buyCmpT_gt_buyRel hc

lemma sell_insert_sorted {l : List Order} {n : ℕ} {p q : ℚ} {ts : ℕ}
    (hsort : l.Pairwise sellRel) (hid : ∀ o ∈ l, o.id < n) :
    (sortTot sellCmpT
      (l ++ [{ id := n, price := .num p, quantity := q,
               timestamp := ts }])).Pairwise sellRel := by
  refine sortTot_pairwise (fun h1 h2 => sellRel_trans h1 h2)
    (fun a b h => sellCmpT_lt_sellRel h) ?_
  rw [List.pairwise_append]
  refine ⟨?_, List.pairwise_singleton _ _, ?_⟩
  · refine hsort.imp ?_
    intro a b h _
    exact h
  intro a ha b hb
  rw [List.mem_singleton.mp hb]
  intro hne
  cases hc : sellCmpT ⟨n, .num p, q, ts⟩ a with
  | lt => exact absurd hc hne
  | eq =>
    rcases sellCmpT_eq.mp hc with ⟨hp, ht⟩
    exact Or.inr ⟨hp.symm, Or.inr ⟨ht.symm, hid a ha⟩⟩
  | gt => exact sellCmpT_gt_sellRel hc

lemma add_order_inv {ob ob' : OrderBook} {p q : ℚ} {ib : Bool} {ts : ℕ}
    {trs : List Trade} (hI : Inv ob)
    (h : ob.add_order (.num p) q ib ts = some (ob', trs)) : Inv ob' := by
  cases ib with
  | true =>
    rw [add_order_buy_eq hI.bnum] at h
    have hob : ob' = (OrderBook.matchOrders
        { ob with
            buy_orders := sortTot buyCmpT (ob.buy_orders ++
              [{ id := ob.next_order_id, price := .num p, quantity := q,
                 timestamp := ts }]),
            next_order_id := ob.next_order_id + 1 }).1 := by
      cases h' : OrderBook.matchOrders
        { ob with
            buy_orders := sortTot buyCmpT (ob.buy_orders ++
              [{ id := ob.next_order_id, price := .num p, quantity := q,
                 timestamp := ts }]),
            next_order_id := ob.next_order_id + 1 } with
      | mk o t =>
        rw [h'] at h
        cases h
        rfl
    subst hob
    refine matchOrders_inv ⟨?_, ?_, ?_, ?_, ?_, ?_⟩
    · intro o ho
      rcases List.mem_append.mp (sortTot_mem.mp ho) with ho | ho
      · exact hI.bnum o ho
      · rw [List.mem_singleton.mp ho]
        simp
    · exact hI.snum
    · exact buy_insert_sorted hI.bsorted hI.bid
    · exact hI.ssorted
    · intro o ho
      rcases List.mem_append.mp (sortTot_mem.mp ho) with ho | ho
      · exact Nat.lt_succ_of_lt (hI.bid o ho)
      · rw [List.mem_singleton.mp ho]
        exact Nat.lt_succ_self _
    · intro o ho
      exact Nat.lt_succ_of_lt (hI.sid o ho)
  | false =>
    rw [add_order_sell_eq hI.snum] at h
    have hob : ob' = (OrderBook.matchOrders
        { ob with
            sell_orders := sortTot sellCmpT (ob.sell_orders ++
              [{ id := ob.next_order_id, price := .num p, quantity := q,
                 timestamp := ts }]),
            next_order_id := ob.next_order_id + 1 }).1 := by
      cases h' : OrderBook.matchOrders
        { ob with
            sell_orders := sortTot sellCmpT (ob.sell_orders ++
              [{ id := ob.next_order_id, price := .num p, quantity := q,
                 timestamp := ts }]),
            next_order_id := ob.next_order_id + 1 } with
      | mk o t =>
        rw [h'] at h
        cases h
        rfl
    subst hob
    refine matchOrders_inv ⟨?_, ?_, ?_, ?_, ?_, ?_⟩
    · exact hI.bnum
    · intro o ho
      rcases List.mem_append.mp (sortTot_mem.mp ho) with ho | ho
      · exact hI.snum o ho
      · rw [List.mem_singleton.mp ho]
        simp
    · exact hI.bsorted
    · exact sell_insert_sorted hI.ssorted hI.sid
    · intro o ho
      exact Nat.lt_succ_of_lt (hI.bid o ho)
    · intro o ho
      rcases List.mem_append.mp (sortTot_mem.mp ho) with ho | ho
      · exact Nat.lt_succ_of_lt (hI.sid o ho)
      · rw [List.mem_singleton.mp ho]
        exact Nat.lt_succ_self _


/-- No resting cross: whenever both sides are non-empty, the best buy price
is strictly below the best sell price. -/
def noCross (ob : OrderBook) : Prop :=
  ∀ b s, ob.buy_orders.head? = some b → ob.sell_orders.head? = some s →
    Px.lt b.price s.price

lemma Px.ge_eq_false_iff {a c : ℚ} :
    Px.ge (.num a) (.num c) = false ↔ a < c := by
  simp [Px.ge]

lemma Px.lt_num {a c : ℚ} : Px.lt (.num a) (.num c) ↔ a < c := Iff.rfl

lemma add_order_ge_noCross {ob ob' : OrderBook} {p : Px} {q : ℚ} {ib : Bool}
    {ts : ℕ} {trs : List Trade}
    (h : ob.add_order p q ib ts = some (ob', trs)) :
    ∀ b s, ob'.buy_orders.head? = some b → ob'.sell_orders.head? = some s →
      Px.ge b.price s.price = false := by
  intro b s hb hs
  cases ib with
  | true =>
    simp only [OrderBook.add_order, if_true] at h
    cases hsort : sortByM buyCmp (ob.buy_orders ++
        [{ id := ob.next_order_id, price := p, quantity := q,
           timestamp := ts }]) with
    | none => rw [hsort] at h; cases h
    | some sorted =>
      rw [hsort] at h
      rw [Option.some_inj] at h
      have h1 := congrArg Prod.fst h
      dsimp only at h1
      have hb' : ob'.buy_orders = (matchLoop sorted ob.sell_orders).1 := by
        rw [← h1]
        rfl
      have hs' : ob'.sell_orders = (matchLoop sorted ob.sell_orders).2.1 := by
        rw [← h1]
        rfl
      rw [hb'] at hb
      rw [hs'] at hs
      exact matchLoop_noCross sorted ob.sell_orders b s hb hs
  | false =>
    simp only [OrderBook.add_order, Bool.false_eq_true, if_false] at h
    cases hsort : sortByM sellCmp (ob.sell_orders ++
        [{ id := ob.next_order_id, price := p, quantity := q,
           timestamp := ts }]) with
    | none => rw [hsort] at h; cases h
    | some sorted =>
      rw [hsort] at h
      rw [Option.some_inj] at h
      have h1 := congrArg Prod.fst h
      dsimp only at h1
      have hb' : ob'.buy_orders = (matchLoop ob.buy_orders sorted).1 := by
        rw [← h1]
        rfl
      have hs' : ob'.sell_orders = (matchLoop ob.buy_orders sorted).2.1 := by
        rw [← h1]
        rfl
      rw [hb'] at hb
      rw [hs'] at hs
      exact matchLoop_noCross ob.buy_orders sorted b s hb hs

lemma inv_new (cp : ℚ) : Inv (OrderBook.new cp) := by
  refine ⟨?_, ?_, ?_, ?_, ?_, ?_⟩ <;> simp [OrderBook.new, AllNum]

lemma noCross_new (cp : ℚ) : noCross (OrderBook.new cp) := by
  intro b s hb _
  simp [OrderBook.new] at hb

lemma runSubs_invariant :
    ∀ {subs : List Sub} {ob ob' : OrderBook}, Inv ob → noCross ob →
      runSubs ob subs = some ob' → Inv ob' ∧ noCross ob' := by
  intro subs
  induction subs with
  | nil =>
    intro ob ob' hI hN h
    rw [runSubs, Option.some_inj] at h
    exact h ▸ ⟨hI, hN⟩
  | cons s rest ih =>
    intro ob ob' hI hN h
    rw [runSubs] at h
    cases hadd : ob.add_order (.num s.price) s.quantity s.is_buy
        s.timestamp with
    | none => rw [hadd] at h; cases h
    | some pr =>
      obtain ⟨ob1, trs⟩ := pr
      rw [hadd] at h
      have hI1 : Inv ob1 := add_order_inv hI hadd
      have hN1 : noCross ob1 := by
        intro b s' hb hs'
        have hge := add_order_ge_noCross hadd b s' hb hs'
        have hbn := hI1.bnum b (List.mem_of_mem_head? hb)
        have hsn := hI1.snum s' (List.mem_of_mem_head? hs')
        rcases Px.ne_nan_iff.mp hbn with ⟨x, hx⟩
        rcases Px.ne_nan_iff.mp hsn with ⟨y, hy⟩
        rw [hx, hy] at hge ⊢
        exact Px.lt_num.mpr (Px.ge_eq_false_iff.mp hge)
      exact ih hI1 hN1 h


/-- Correct relative order of two buy-side orders per the spec: price
non-increasing, and non-decreasing timestamps among equal prices (only
orderable prices compare at all). -/
def buySpec (a b : Order) : Prop :=
  match a.price, b.price with
  | Px.num pa, Px.num pb => pb ≤ pa ∧ (pa = pb → a.timestamp ≤ b.timestamp)
  | _, _ => False

/-- Correct relative order of two sell-side orders per the spec: price
non-decreasing, and non-decreasing timestamps among equal prices. -/
def sellSpec (a b : Order) : Prop :=
  match a.price, b.price with
  | Px.num pa, Px.num pb => pa ≤ pb ∧ (pa = pb → a.timestamp ≤ b.timestamp)
  | _, _ => False

/-- Final tie-break: among equal price and equal timestamp, the
earlier-submitted order (smaller id) comes first. -/
def tieSpec (a b : Order) : Prop :=
  a.price = b.price → a.timestamp = b.timestamp → a.id < b.id

/-- C1: for every sequence of valid submissions, after each submit call
returns, whenever both sides are non-empty the best buy price is strictly
below the best sell price (no crossing orders remain resting).  Stated over
every sequence of valid submissions from a fresh book, hence in particular
after each prefix, i.e. after each call. -/
theorem claim1_no_resting_cross (cp : ℚ) (subs : List Sub) (ob' : OrderBook)
    (_hv : ∀ s ∈ subs, s.valid)
    (hrun : runSubs (OrderBook.new cp) subs = some ob') : noCross ob' :=
  (runSubs_invariant (inv_new cp) (noCross_new cp) hrun).2

/-- C1 witness at a concrete two-submission run. -/
theorem claim1_no_resting_cross_witness :
    (∀ s ∈ [Sub.mk 1 1 true 0, Sub.mk 2 1 false 0], s.valid) ∧
      runSubs (OrderBook.new 5) [Sub.mk 1 1 true 0, Sub.mk 2 1 false 0] =
        some ⟨[⟨1, .num 1, 1, 0⟩], [⟨2, .num 2, 1, 0⟩], 3, 5⟩ ∧
      noCross ⟨[⟨1, .num 1, 1, 0⟩], [⟨2, .num 2, 1, 0⟩], 3, 5⟩ := by
  have hv : ∀ s ∈ [Sub.mk 1 1 true 0, Sub.mk 2 1 false 0], s.valid := by
    intro s hs
    rcases List.mem_cons.mp hs with rfl | hs
    · exact ⟨by norm_num, by norm_num⟩
    rcases List.mem_cons.mp hs with rfl | hs
    · exact ⟨by norm_num, by norm_num⟩
    · cases hs
  have hrun : runSubs (OrderBook.new 5) [Sub.mk 1 1 true 0, Sub.mk 2 1 false 0] =
      some ⟨[⟨1, .num 1, 1, 0⟩], [⟨2, .num 2, 1, 0⟩], 3, 5⟩ := by
    simp [runSubs, OrderBook.add_order, OrderBook.new, sortByM, sortPass,
      insertByM, OrderBook.matchOrders, buyCmp, sellCmp, Px.pcmp, matchLoop,
      Px.ge]
  exact ⟨hv, hrun, claim1_no_resting_cross 5 _ _ hv hrun⟩



/-- C2: after every valid submission sequence, the buy side is sorted with
price non-increasing (ties: timestamp non-decreasing) and the sell side with
price non-decreasing (ties: timestamp non-decreasing). -/
theorem claim2_sides_sorted (cp : ℚ) (subs : List Sub) (ob' : OrderBook)
    (_hv : ∀ s ∈ subs, s.valid)
    (hrun : runSubs (OrderBook.new cp) subs = some ob') :
    ob'.buy_orders.Pairwise buySpec ∧ ob'.sell_orders.Pairwise sellSpec := by
  obtain ⟨hI, -⟩ := runSubs_invariant (inv_new cp) (noCross_new cp) hrun
  constructor
  · refine hI.bsorted.imp_of_mem ?_
    intro a b ha hb hR
    rcases Px.ne_nan_iff.mp (hI.bnum a ha) with ⟨pa, hpa⟩
    rcases Px.ne_nan_iff.mp (hI.bnum b hb) with ⟨pb, hpb⟩
    unfold buyRel at hR
    rw [hpa, hpb] at hR
    simp only [Px.toQ] at hR
    unfold buySpec
    rw [hpa, hpb]
    rcases hR with h | ⟨hp, ht⟩
    · exact ⟨le_of_lt h, fun he => absurd (he ▸ h) (lt_irrefl _)⟩
    · refine ⟨le_of_eq hp.symm, fun _ => ?_⟩
      rcases ht with ht | ⟨ht, _⟩
      · exact le_of_lt ht
      · exact le_of_eq ht
  · refine hI.ssorted.imp_of_mem ?_
    intro a b ha hb hR
    rcases Px.ne_nan_iff.mp (hI.snum a ha) with ⟨pa, hpa⟩
    rcases Px.ne_nan_iff.mp (hI.snum b hb) with ⟨pb, hpb⟩
    unfold sellRel at hR
    rw [hpa, hpb] at hR
    simp only [Px.toQ] at hR
    unfold sellSpec
    rw [hpa, hpb]
    rcases hR with h | ⟨hp, ht⟩
    · exact ⟨le_of_lt h, fun he => absurd (he ▸ h) (lt_irrefl _)⟩
    · refine ⟨le_of_eq hp, fun _ => ?_⟩
      rcases ht with ht | ⟨ht, _⟩
      · exact le_of_lt ht
      · exact le_of_eq ht

/-- C10: the per-side sort is stable, so among resting orders with equal
price and equal timestamp the earlier-submitted order (smaller id) always
precedes the later one, on both sides. -/
theorem claim10_stable_tie_break (cp : ℚ) (subs : List Sub)
    (ob' : OrderBook) (hrun : runSubs (OrderBook.new cp) subs = some ob') :
    ob'.buy_orders.Pairwise tieSpec ∧ ob'.sell_orders.Pairwise tieSpec := by
  obtain ⟨hI, -⟩ := runSubs_invariant (inv_new cp) (noCross_new cp) hrun
  constructor
  · refine hI.bsorted.imp ?_
    intro a b hR
    intro hp ht
    have hpq : a.price.toQ = b.price.toQ := congrArg Px.toQ hp
    rcases hR with h | ⟨-, h | ⟨-, h⟩⟩
    · rw [hpq] at h
      exact absurd h (lt_irrefl _)
    · rw [ht] at h
      exact absurd h (lt_irrefl _)
    · exact h
  · refine hI.ssorted.imp ?_
    intro a b hR
    intro hp ht
    have hpq : a.price.toQ = b.price.toQ := congrArg Px.toQ hp
    rcases hR with h | ⟨-, h | ⟨-, h⟩⟩
    · rw [hpq] at h
      exact absurd h (lt_irrefl _)
    · rw [ht] at h
      exact absurd h (lt_irrefl _)
    · exact h



/-- C4: conservation — in any single matching pass, the quantity removed
from the buy side, the quantity removed from the sell side and the total
reported trade quantity coincide (stated additively). -/
theorem claim4_conservation (ob : OrderBook) :
    qtySum ob.buy_orders =
        qtySum (OrderBook.matchOrders ob).1.buy_orders +
          tradeSum (OrderBook.matchOrders ob).2 ∧
      qtySum ob.sell_orders =
        qtySum (OrderBook.matchOrders ob).1.sell_orders +
          tradeSum (OrderBook.matchOrders ob).2 :=
  matchLoop_qty ob.buy_orders ob.sell_orders

/-- C9: the matching pass is total (it is a well-founded recursion on the
number of resting orders) and each crossing iteration pops at least one
head, so the trades reported plus the orders left never exceed the orders
that were resting: the pass performs at most that many iterations. -/
theorem claim9_matching_pass_bounded (ob : OrderBook) :
    (OrderBook.matchOrders ob).1.buy_orders.length +
        (OrderBook.matchOrders ob).1.sell_orders.length +
        (OrderBook.matchOrders ob).2.length ≤
      ob.buy_orders.length + ob.sell_orders.length :=
  matchLoop_len ob.buy_orders ob.sell_orders

/-- C3: one crossing iteration of the matching loop: when the head buy price
is at least the head sell price, exactly one trade at the sell head's price
for `min` of the two quantities is reported, a head whose quantity equals
the traded quantity is popped, and a head whose quantity is strictly larger
stays with its quantity reduced by exactly the traded quantity; the loop
then continues on the resulting state. -/
theorem claim3_crossing_step (b s : Order) (bs ss : List Order)
    (hge : Px.ge b.price s.price = true) :
    matchLoop (b :: bs) (s :: ss) =
      (let tq := min b.quantity s.quantity
       let bs' := if b.quantity = tq then bs
         else { b with quantity := b.quantity - tq } :: bs
       let ss' := if s.quantity = tq then ss
         else { s with quantity := s.quantity - tq } :: ss
       ((matchLoop bs' ss').1, (matchLoop bs' ss').2.1,
        { buy_id := b.id, sell_id := s.id, price := s.price,
          quantity := tq } :: (matchLoop bs' ss').2.2)) := by
  have hbq := min_le_left b.quantity s.quantity
  have hsq := min_le_right b.quantity s.quantity
  rw [matchLoop, if_pos hge]
  dsimp only
  by_cases hb1 : b.quantity = min b.quantity s.quantity <;>
    by_cases hs1 : s.quantity = min b.quantity s.quantity
  · rw [if_pos hb1, if_pos hs1, if_neg (not_lt.mpr (le_of_eq hb1)),
      if_neg (not_lt.mpr (le_of_eq hs1))]
  · rw [if_pos hb1, if_neg hs1, if_neg (not_lt.mpr (le_of_eq hb1)),
      if_pos (lt_of_le_of_ne hsq (fun he => hs1 he.symm))]
  · rw [if_neg hb1, if_pos hs1, if_pos (lt_of_le_of_ne hbq
      (fun he => hb1 he.symm)), if_neg (not_lt.mpr (le_of_eq hs1))]
  · rw [if_neg hb1, if_neg hs1, if_pos (lt_of_le_of_ne hbq
      (fun he => hb1 he.symm)), if_pos (lt_of_le_of_ne hsq
      (fun he => hs1 he.symm))]

/-- C3 witness: a concrete crossing pair (partial fill of the buy head). -/
theorem claim3_crossing_step_witness :
    Px.ge (Px.num 10) (Px.num 9) = true ∧
      matchLoop [(⟨1, .num 10, 5, 0⟩ : Order)] [(⟨2, .num 9, 3, 0⟩ : Order)] =
        (let tq := min (5 : ℚ) 3
         let bs' := if (5 : ℚ) = tq then ([] : List Order)
           else [(⟨1, .num 10, 5 - tq, 0⟩ : Order)]
         let ss' := if (3 : ℚ) = tq then ([] : List Order)
           else [(⟨2, .num 9, 3 - tq, 0⟩ : Order)]
         ((matchLoop bs' ss').1, (matchLoop bs' ss').2.1,
          { buy_id := 1, sell_id := 2, price := .num 9,
            quantity := tq } :: (matchLoop bs' ss').2.2)) := by
  constructor
  · decide
  · exact claim3_crossing_step ⟨1, .num 10, 5, 0⟩ ⟨2, .num 9, 3, 0⟩ [] []
      (by decide)



lemma setQty_none {oid : ℕ} {q : ℚ} :
    ∀ {l : List Order}, (∀ o ∈ l, o.id ≠ oid) → setQty oid q l = none := by
  intro l
  induction l with
  | nil => intro _; rfl
  | cons o os ih =>
    intro h
    rw [setQty, if_neg (h o (List.mem_cons_self o os)),
      ih (fun o' ho' => h o' (List.mem_cons_of_mem _ ho'))]
    rfl

lemma setQty_some_of_split {oid : ℕ} {q : ℚ} :
    ∀ {l1 : List Order} {o : Order} {l2 : List Order},
      (∀ x ∈ l1, x.id ≠ oid) → o.id = oid →
      setQty oid q (l1 ++ o :: l2) =
        some (l1 ++ { o with quantity := q } :: l2) := by
  intro l1
  induction l1 with
  | nil =>
    intro o l2 _ ho
    rw [List.nil_append, setQty, if_pos ho, List.nil_append]
  | cons x xs ih =>
    intro o l2 h1 ho
    rw [List.cons_append, setQty, if_neg (h1 x (List.mem_cons_self x xs)),
      ih (fun x' hx' => h1 x' (List.mem_cons_of_mem _ hx')) ho]
    rfl

lemma exists_first_with_id {oid : ℕ} :
    ∀ {l : List Order}, (∃ o ∈ l, o.id = oid) →
      ∃ l1 o l2, l = l1 ++ o :: l2 ∧ o.id = oid ∧ ∀ x ∈ l1, x.id ≠ oid := by
  intro l
  induction l with
  | nil =>
    rintro ⟨o, ho, -⟩
    cases ho
  | cons x xs ih =>
    rintro ⟨o, ho, hid⟩
    by_cases hx : x.id = oid
    · exact ⟨[], x, xs, rfl, hx, by simp⟩
    · have hmem : ∃ o ∈ xs, o.id = oid := by
        rcases List.mem_cons.mp ho with rfl | ho
        · exact absurd hid hx
        · exact ⟨o, ho, hid⟩
      rcases ih hmem with ⟨l1, o', l2, heq, hid', hfst⟩
      refine ⟨x :: l1, o', l2, by rw [heq, List.cons_append], hid', ?_⟩
      intro x' hx'
      rcases List.mem_cons.mp hx' with rfl | hx'
      · exact hx
      · exact hfst x' hx'

/-- C6: modifying a nonexistent order id is a complete no-op: the whole book
(both sequences, `next_order_id`, `current_price`) is unchanged; the
operation returns nothing, so nothing is signalled. -/
theorem claim6_modify_unknown_noop (ob : OrderBook) (oid : ℕ) (q : ℚ)
    (h : ∀ o ∈ ob.buy_orders ++ ob.sell_orders, o.id ≠ oid) :
    ob.modify_order oid q = ob := by
  have hb : setQty oid q ob.buy_orders = none :=
    setQty_none (fun o ho => h o (List.mem_append_left _ ho))
  have hs : setQty oid q ob.sell_orders = none :=
    setQty_none (fun o ho => h o (List.mem_append_right _ ho))
  simp only [OrderBook.modify_order, hb, hs]

/-- C6 witness: a one-buy-order book modified at an absent id. -/
theorem claim6_modify_unknown_noop_witness :
    (∀ o ∈ (OrderBook.buy_orders ⟨[⟨1, .num 3, 2, 0⟩], [], 2, 7⟩) ++
        (OrderBook.sell_orders ⟨[⟨1, .num 3, 2, 0⟩], [], 2, 7⟩), o.id ≠ 9) ∧
      OrderBook.modify_order ⟨[⟨1, .num 3, 2, 0⟩], [], 2, 7⟩ 9 4 =
        ⟨[⟨1, .num 3, 2, 0⟩], [], 2, 7⟩ := by
  constructor
  · decide
  · exact claim6_modify_unknown_noop ⟨[⟨1, .num 3, 2, 0⟩], [], 2, 7⟩ 9 4
      (by decide)

/-- C7: modifying an existing order id overwrites exactly that order's
quantity in place (any new quantity, including non-positive ones) and
changes nothing else: the first matching order (buy side scanned first, as
in the source's `chain`) is replaced by the same order with the new
quantity, every other order is untouched, the two side lengths and both
scalar fields stay the same — no re-sort and no matching pass happens. -/
theorem claim7_modify_in_place (ob : OrderBook) (oid : ℕ) (q : ℚ)
    (h : ∃ o ∈ ob.buy_orders ++ ob.sell_orders, o.id = oid) :
    ∃ l1 o l2,
      ob.buy_orders ++ ob.sell_orders = l1 ++ o :: l2 ∧ o.id = oid ∧
      (∀ x ∈ l1, x.id ≠ oid) ∧
      (ob.modify_order oid q).buy_orders ++
          (ob.modify_order oid q).sell_orders =
        l1 ++ { o with quantity := q } :: l2 ∧
      (ob.modify_order oid q).buy_orders.length = ob.buy_orders.length ∧
      (ob.modify_order oid q).sell_orders.length = ob.sell_orders.length ∧
      (ob.modify_order oid q).next_order_id = ob.next_order_id ∧
      (ob.modify_order oid q).current_price = ob.current_price := by
  by_cases hbuy : ∃ o ∈ ob.buy_orders, o.id = oid
  · rcases exists_first_with_id hbuy with ⟨l1, o, l2, heq, hid, hfst⟩
    have hset : setQty oid q ob.buy_orders =
        some (l1 ++ { o with quantity := q } :: l2) := by
      rw [heq]
      exact setQty_some_of_split hfst hid
    have hmod : ob.modify_order oid q =
        { ob with buy_orders := l1 ++ { o with quantity := q } :: l2 } := by
      simp only [OrderBook.modify_order, hset]
    refine ⟨l1, o, l2 ++ ob.sell_orders, ?_, hid, hfst, ?_, ?_, ?_, ?_, ?_⟩
    · rw [heq, List.append_assoc, List.cons_append]
    · rw [hmod, List.append_assoc, List.cons_append]
    · rw [hmod, heq]
      simp
    · rw [hmod]
    · rw [hmod]
    · rw [hmod]
  · have hnone : setQty oid q ob.buy_orders = none :=
      setQty_none (fun o ho hid => hbuy ⟨o, ho, hid⟩)
    have hsell : ∃ o ∈ ob.sell_orders, o.id = oid := by
      rcases h with ⟨o, ho, hid⟩
      rcases List.mem_append.mp ho with ho | ho
      · exact absurd ⟨o, ho, hid⟩ hbuy
      · exact ⟨o, ho, hid⟩
    rcases exists_first_with_id hsell with ⟨l1, o, l2, heq, hid, hfst⟩
    have hset : setQty oid q ob.sell_orders =
        some (l1 ++ { o with quantity := q } :: l2) := by
      rw [heq]
      exact setQty_some_of_split hfst hid
    have hmod : ob.modify_order oid q =
        { ob with sell_orders := l1 ++ { o with quantity := q } :: l2 } := by
      simp only [OrderBook.modify_order, hnone, hset]
    refine ⟨ob.buy_orders ++ l1, o, l2, ?_, hid, ?_, ?_, ?_, ?_, ?_, ?_⟩
    · rw [heq, List.append_assoc]
    · intro x hx
      rcases List.mem_append.mp hx with hx | hx
      · exact fun hxid => hbuy ⟨x, hx, hxid⟩
      · exact hfst x hx
    · rw [hmod, List.append_assoc]
    · rw [hmod]
    · rw [hmod, heq]
      simp
    · rw [hmod]
    · rw [hmod]

/-- C7 witness: growing the quantity of the resting sell order with id 2. -/
theorem claim7_modify_in_place_witness :
    (∃ o ∈ (OrderBook.buy_orders ⟨[⟨1, .num 3, 2, 0⟩], [⟨2, .num 5, 1, 0⟩], 3, 7⟩) ++
        (OrderBook.sell_orders ⟨[⟨1, .num 3, 2, 0⟩], [⟨2, .num 5, 1, 0⟩], 3, 7⟩), o.id = 2) ∧
      ∃ l1 o l2,
        (OrderBook.buy_orders ⟨[⟨1, .num 3, 2, 0⟩], [⟨2, .num 5, 1, 0⟩], 3, 7⟩) ++
            (OrderBook.sell_orders ⟨[⟨1, .num 3, 2, 0⟩], [⟨2, .num 5, 1, 0⟩], 3, 7⟩) =
          l1 ++ o :: l2 ∧ o.id = 2 ∧
        (∀ x ∈ l1, x.id ≠ 2) ∧
        (OrderBook.modify_order ⟨[⟨1, .num 3, 2, 0⟩], [⟨2, .num 5, 1, 0⟩], 3, 7⟩ 2 9).buy_orders ++
            (OrderBook.modify_order ⟨[⟨1, .num 3, 2, 0⟩], [⟨2, .num 5, 1, 0⟩], 3, 7⟩ 2 9).sell_orders =
          l1 ++ { o with quantity := 9 } :: l2 ∧
        (OrderBook.modify_order ⟨[⟨1, .num 3, 2, 0⟩], [⟨2, .num 5, 1, 0⟩], 3, 7⟩ 2 9).buy_orders.length =
          (OrderBook.buy_orders ⟨[⟨1, .num 3, 2, 0⟩], [⟨2, .num 5, 1, 0⟩], 3, 7⟩).length ∧
        (OrderBook.modify_order ⟨[⟨1, .num 3, 2, 0⟩], [⟨2, .num 5, 1, 0⟩], 3, 7⟩ 2 9).sell_orders.length =
          (OrderBook.sell_orders ⟨[⟨1, .num 3, 2, 0⟩], [⟨2, .num 5, 1, 0⟩], 3, 7⟩).length ∧
        (OrderBook.modify_order ⟨[⟨1, .num 3, 2, 0⟩], [⟨2, .num 5, 1, 0⟩], 3, 7⟩ 2 9).next_order_id =
          (OrderBook.next_order_id ⟨[⟨1, .num 3, 2, 0⟩], [⟨2, .num 5, 1, 0⟩], 3, 7⟩) ∧
        (OrderBook.modify_order ⟨[⟨1, .num 3, 2, 0⟩], [⟨2, .num 5, 1, 0⟩], 3, 7⟩ 2 9).current_price =
          (OrderBook.current_price ⟨[⟨1, .num 3, 2, 0⟩], [⟨2, .num 5, 1, 0⟩], 3, 7⟩) := by
  refine ⟨⟨⟨2, .num 5, 1, 0⟩, by decide, rfl⟩, ?_⟩
  exact claim7_modify_in_place ⟨[⟨1, .num 3, 2, 0⟩], [⟨2, .num 5, 1, 0⟩], 3, 7⟩ 2 9
    ⟨⟨2, .num 5, 1, 0⟩, by decide, rfl⟩


lemma Px.ge_false_of_lt {x y : Px} (h : Px.lt x y) : Px.ge x y = false := by
  cases x with
  | nan => rfl
  | num a =>
    cases y with
    | nan => rfl
    | num c => exact Px.ge_eq_false_iff.mpr h

lemma Px.lt_elim {x y : Px} (h : Px.lt x y) :
    ∃ a c, x = .num a ∧ y = .num c ∧ a < c := by
  cases x with
  | nan => exact h.elim
  | num a =>
    cases y with
    | nan => exact h.elim
    | num c => exact ⟨a, c, rfl, rfl, h⟩

/-- When the two heads do not cross, the matching loop is the identity and
reports no trade. -/
lemma matchLoop_no_trade {L ss : List Order}
    (h : ∀ b0 s0, L.head? = some b0 → ss.head? = some s0 →
      Px.ge b0.price s0.price = false) :
    matchLoop L ss = (L, ss, []) := by
  cases L with
  | nil => rw [matchLoop]
  | cons b bs =>
    cases ss with
    | nil => rw [matchLoop]
    | cons s ss' =>
      rw [matchLoop, if_neg]
      rw [h b s rfl rfl]
      simp

/-- C5 (amended): for a book satisfying the per-side §3 ordering invariants
with orderable prices and the no-crossing invariant, a valid submission that
does not cross any resting order on the opposite side succeeds and leaves
the opposite side completely unchanged. -/
theorem claim5_noncrossing_frame (ob : OrderBook) (p q : ℚ) (ib : Bool)
    (ts : ℕ)
    (hbs : ob.buy_orders.Pairwise buySpec)
    (hss : ob.sell_orders.Pairwise sellSpec)
    (hbn : AllNum ob.buy_orders) (hsn : AllNum ob.sell_orders)
    (hnc : noCross ob) (_hp : 0 < p) (_hq : 0 < q)
    (hfar : if ib then ∀ o ∈ ob.sell_orders, Px.lt (.num p) o.price
            else ∀ o ∈ ob.buy_orders, Px.lt o.price (.num p)) :
    ∃ ob' trs, ob.add_order (.num p) q ib ts = some (ob', trs) ∧
      (if ib then ob'.sell_orders = ob.sell_orders
       else ob'.buy_orders = ob.buy_orders) := by
  cases ib with
  | true =>
    have hfar' : ∀ o ∈ ob.sell_orders, Px.lt (.num p) o.price := hfar
    rw [add_order_buy_eq hbn]
    refine ⟨_, _, rfl, ?_⟩
    show (matchLoop (sortTot buyCmpT (ob.buy_orders ++
        [{ id := ob.next_order_id, price := .num p, quantity := q,
           timestamp := ts }])) ob.sell_orders).2.1 = ob.sell_orders
    rw [matchLoop_no_trade]
    intro b0 s0 hb0 hs0
    have hb0m : b0 ∈ ob.buy_orders ++
        [({ id := ob.next_order_id, price := .num p, quantity := q,
            timestamp := ts } : Order)] :=
      sortTot_mem.mp (List.mem_of_mem_head? hb0)
    have hs0m : s0 ∈ ob.sell_orders := List.mem_of_mem_head? hs0
    rcases List.mem_append.mp hb0m with hb0m | hb0m
    · cases hbeq : ob.buy_orders with
      | nil =>
        rw [hbeq] at hb0m
        cases hb0m
      | cons hb tl =>
        have hlt : Px.lt hb.price s0.price := by
          refine hnc hb s0 ?_ hs0
          rw [hbeq]
          rfl
        rcases Px.lt_elim hlt with ⟨a, c, ha, hc, hac⟩
        rw [hbeq] at hb0m
        rcases List.mem_cons.mp hb0m with rfl | hb0m
        · exact Px.ge_false_of_lt hlt
        · have hb0mem : b0 ∈ ob.buy_orders := by
            rw [hbeq]
            exact List.mem_cons_of_mem _ hb0m
          rcases Px.ne_nan_iff.mp (hbn b0 hb0mem) with ⟨pb, hpb⟩
          have hrel : buySpec hb b0 := by
            rw [hbeq] at hbs
            exact (List.pairwise_cons.mp hbs).1 b0 hb0m
          unfold buySpec at hrel
          rw [ha, hpb] at hrel
          rw [hpb, hc]
          exact Px.ge_eq_false_iff.mpr (lt_of_le_of_lt hrel.1 hac)
    · rw [List.mem_singleton.mp hb0m]
      exact Px.ge_false_of_lt (hfar' s0 hs0m)
  | false =>
    have hfar' : ∀ o ∈ ob.buy_orders, Px.lt o.price (.num p) := hfar
    rw [add_order_sell_eq hsn]
    refine ⟨_, _, rfl, ?_⟩
    show (matchLoop ob.buy_orders (sortTot sellCmpT (ob.sell_orders ++
        [{ id := ob.next_order_id, price := .num p, quantity := q,
           timestamp := ts }]))).1 = ob.buy_orders
    rw [matchLoop_no_trade]
    intro b0 s0 hb0 hs0
    have hs0m : s0 ∈ ob.sell_orders ++
        [({ id := ob.next_order_id, price := .num p, quantity := q,
            timestamp := ts } : Order)] :=
      sortTot_mem.mp (List.mem_of_mem_head? hs0)
    have hb0m : b0 ∈ ob.buy_orders := List.mem_of_mem_head? hb0
    rcases List.mem_append.mp hs0m with hs0m | hs0m
    · cases hseq : ob.sell_orders with
      | nil =>
        rw [hseq] at hs0m
        cases hs0m
      | cons hs tl =>
        have hlt : Px.lt b0.price hs.price := by
          refine hnc b0 hs hb0 ?_
          rw [hseq]
          rfl
        rcases Px.lt_elim hlt with ⟨a, c, ha, hc, hac⟩
        rw [hseq] at hs0m
        rcases List.mem_cons.mp hs0m with rfl | hs0m
        · exact Px.ge_false_of_lt hlt
        · have hs0mem : s0 ∈ ob.sell_orders := by
            rw [hseq]
            exact List.mem_cons_of_mem _ hs0m
          rcases Px.ne_nan_iff.mp (hsn s0 hs0mem) with ⟨ps, hps⟩
          have hrel : sellSpec hs s0 := by
            rw [hseq] at hss
            exact (List.pairwise_cons.mp hss).1 s0 hs0m
          unfold sellSpec at hrel
          rw [hc, hps] at hrel
          rw [ha, hps]
          exact Px.ge_eq_false_iff.mpr (lt_of_lt_of_le hac hrel.1)
    · rw [List.mem_singleton.mp hs0m]
      exact Px.ge_false_of_lt (hfar' b0 hb0m)


/-- An (unreachable, unsorted) book whose heads do not cross, used to refute
C5 as literally stated. -/
def crossedBook : OrderBook :=
  ⟨[⟨1, .num 10, 1, 0⟩, ⟨2, .num 100, 1, 0⟩], [⟨3, .num 50, 1, 0⟩], 4, 7⟩

/-- C5 counterexample: `crossedBook` satisfies the no-crossing invariant
(heads 10 < 50) but its buy side is not sorted; submitting the valid buy
order 1×1 — which crosses no resting sell — re-sorts the buy side, brings
the resting 100-buy to the head and trades it against the 50-sell, emptying
the sell side.  So the no-crossing invariant alone does not give the claimed
frame property. -/
theorem claim5_counterexample :
    noCross crossedBook ∧
      (0:ℚ) < 1 ∧
      (∀ o ∈ crossedBook.sell_orders, Px.lt (.num 1) o.price) ∧
      (crossedBook.add_order (.num 1) 1 true 0).map
          (fun r => r.1.sell_orders) = some [] ∧
      crossedBook.sell_orders ≠ [] := by
  refine ⟨?_, by norm_num, ?_, ?_, by simp [crossedBook]⟩
  · intro b s hb hs
    simp only [crossedBook, List.head?_cons, Option.some.injEq] at hb hs
    subst hb
    subst hs
    show (10:ℚ) < 50
    norm_num
  · intro o ho
    simp only [crossedBook, List.mem_singleton] at ho
    subst ho
    show (1:ℚ) < 50
    norm_num
  · have c1 : compare (10:ℚ) (100:ℚ) = .lt := by decide
    have c2 : compare (100:ℚ) (1:ℚ) = .gt := by decide
    have c3 : compare (10:ℚ) (1:ℚ) = .gt := by decide
    simp [crossedBook, OrderBook.add_order, sortByM, sortPass, insertByM,
      buyCmp, Px.pcmp, c1, c2, c3, OrderBook.matchOrders, matchLoop, Px.ge]
    norm_num

/-- C5 witness: a sorted one-per-side book; a non-crossing buy leaves the
sell side untouched. -/
theorem claim5_noncrossing_frame_witness :
    (OrderBook.buy_orders ⟨[⟨1, .num 10, 1, 0⟩], [⟨2, .num 50, 1, 0⟩], 3, 7⟩).Pairwise buySpec ∧
      (OrderBook.sell_orders ⟨[⟨1, .num 10, 1, 0⟩], [⟨2, .num 50, 1, 0⟩], 3, 7⟩).Pairwise sellSpec ∧
      AllNum (OrderBook.buy_orders ⟨[⟨1, .num 10, 1, 0⟩], [⟨2, .num 50, 1, 0⟩], 3, 7⟩) ∧
      AllNum (OrderBook.sell_orders ⟨[⟨1, .num 10, 1, 0⟩], [⟨2, .num 50, 1, 0⟩], 3, 7⟩) ∧
      noCross ⟨[⟨1, .num 10, 1, 0⟩], [⟨2, .num 50, 1, 0⟩], 3, 7⟩ ∧
      (0:ℚ) < 20 ∧ (0:ℚ) < 1 ∧
      (∀ o ∈ OrderBook.sell_orders ⟨[⟨1, .num 10, 1, 0⟩], [⟨2, .num 50, 1, 0⟩], 3, 7⟩,
        Px.lt (.num 20) o.price) ∧
      ∃ ob' trs,
        OrderBook.add_order ⟨[⟨1, .num 10, 1, 0⟩], [⟨2, .num 50, 1, 0⟩], 3, 7⟩
            (.num 20) 1 true 1 = some (ob', trs) ∧
        (if true then ob'.sell_orders =
            OrderBook.sell_orders ⟨[⟨1, .num 10, 1, 0⟩], [⟨2, .num 50, 1, 0⟩], 3, 7⟩
         else ob'.buy_orders =
            OrderBook.buy_orders ⟨[⟨1, .num 10, 1, 0⟩], [⟨2, .num 50, 1, 0⟩], 3, 7⟩) := by
  have h1 : (OrderBook.buy_orders ⟨[⟨1, .num 10, 1, 0⟩], [⟨2, .num 50, 1, 0⟩], 3, 7⟩).Pairwise buySpec :=
    List.pairwise_singleton _ _
  have h2 : (OrderBook.sell_orders ⟨[⟨1, .num 10, 1, 0⟩], [⟨2, .num 50, 1, 0⟩], 3, 7⟩).Pairwise sellSpec :=
    List.pairwise_singleton _ _
  have h3 : AllNum (OrderBook.buy_orders ⟨[⟨1, .num 10, 1, 0⟩], [⟨2, .num 50, 1, 0⟩], 3, 7⟩) := by
    intro o ho
    simp only [List.mem_singleton] at ho
    subst ho
    simp
  have h4 : AllNum (OrderBook.sell_orders ⟨[⟨1, .num 10, 1, 0⟩], [⟨2, .num 50, 1, 0⟩], 3, 7⟩) := by
    intro o ho
    simp only [List.mem_singleton] at ho
    subst ho
    simp
  have h5 : noCross ⟨[⟨1, .num 10, 1, 0⟩], [⟨2, .num 50, 1, 0⟩], 3, 7⟩ := by
    intro b s hb hs
    simp only [List.head?_cons, Option.some.injEq] at hb hs
    subst hb
    subst hs
    show (10:ℚ) < 50
    norm_num
  have h8 : ∀ o ∈ OrderBook.sell_orders ⟨[⟨1, .num 10, 1, 0⟩], [⟨2, .num 50, 1, 0⟩], 3, 7⟩,
      Px.lt (.num 20) o.price := by
    intro o ho
    simp only [List.mem_singleton] at ho
    subst ho
    show (20:ℚ) < 50
    norm_num
  exact ⟨h1, h2, h3, h4, h5, by norm_num, by norm_num, h8,
    claim5_noncrossing_frame _ 20 1 true 1 h1 h2 h3 h4 h5 (by norm_num)
      (by norm_num) h8⟩


/-- Two valid submissions (a buy at 1, then a sell at 2) used by several
witnesses. -/
def twoSubs : List Sub := [⟨1, 1, true, 0⟩, ⟨2, 1, false, 0⟩]

/-- The book reached by `twoSubs` from a fresh book with reference price
5. -/
def twoSubsBook : OrderBook :=
  ⟨[⟨1, .num 1, 1, 0⟩], [⟨2, .num 2, 1, 0⟩], 3, 5⟩

lemma twoSubs_valid : ∀ s ∈ twoSubs, s.valid := by
  intro s hs
  rcases List.mem_cons.mp hs with rfl | hs
  · exact ⟨by norm_num, by norm_num⟩
  rcases List.mem_cons.mp hs with rfl | hs
  · exact ⟨by norm_num, by norm_num⟩
  · cases hs

lemma twoSubs_eval :
    runSubs (OrderBook.new 5) twoSubs = some twoSubsBook := by
  simp [twoSubs, twoSubsBook, runSubs, OrderBook.add_order, OrderBook.new,
    sortByM, sortPass, insertByM, OrderBook.matchOrders, buyCmp, sellCmp,
    Px.pcmp, matchLoop, Px.ge]

/-- C2 witness at the concrete two-submission run. -/
theorem claim2_sides_sorted_witness :
    (∀ s ∈ twoSubs, s.valid) ∧
      runSubs (OrderBook.new 5) twoSubs = some twoSubsBook ∧
      (twoSubsBook.buy_orders.Pairwise buySpec ∧
        twoSubsBook.sell_orders.Pairwise sellSpec) :=
  ⟨twoSubs_valid, twoSubs_eval,
    claim2_sides_sorted 5 twoSubs twoSubsBook twoSubs_valid twoSubs_eval⟩

/-- C10 witness at the concrete two-submission run. -/
theorem claim10_stable_tie_break_witness :
    runSubs (OrderBook.new 5) twoSubs = some twoSubsBook ∧
      (twoSubsBook.buy_orders.Pairwise tieSpec ∧
        twoSubsBook.sell_orders.Pairwise tieSpec) :=
  ⟨twoSubs_eval, claim10_stable_tie_break 5 twoSubs twoSubsBook twoSubs_eval⟩

/-- C8 (amended): submitting an order with an unorderable (NaN) price aborts
the process whenever the receiving side already holds at least one resting
order — the sort then makes a comparison against it and `unwrap` panics; and
conversely, when every price in the book and the submitted price are
orderable, the per-side sort never fails and submit always returns. -/
theorem claim8_unorderable_price (ob : OrderBook) (q : ℚ) (ts : ℕ) (p : ℚ)
    (ib : Bool)
    (hne : (if ib then ob.buy_orders else ob.sell_orders) ≠ [])
    (hbn : AllNum ob.buy_orders) (hsn : AllNum ob.sell_orders) :
    ob.add_order .nan q ib ts = none ∧
      ∀ ib2 : Bool, ∃ ob' trs,
        ob.add_order (.num p) q ib2 ts = some (ob', trs) := by
  constructor
  · cases ib with
    | true =>
      have hne' : ob.buy_orders ≠ [] := hne
      simp only [OrderBook.add_order, if_true]
      have hnone : sortByM buyCmp (ob.buy_orders ++
          [({ id := ob.next_order_id, price := .nan, quantity := q,
              timestamp := ts } : Order)]) = none := by
        rw [sortByM]
        refine sortPass_none_append_nan ?_ ?_
        · intro y
          exact buyCmp_of_nan rfl y
        · have hpos : 0 < ob.buy_orders.length := List.length_pos.mpr hne'
          simpa using hpos
      rw [hnone]
    | false =>
      have hne' : ob.sell_orders ≠ [] := hne
      simp only [OrderBook.add_order, Bool.false_eq_true, if_false]
      have hnone : sortByM sellCmp (ob.sell_orders ++
          [({ id := ob.next_order_id, price := .nan, quantity := q,
              timestamp := ts } : Order)]) = none := by
        rw [sortByM]
        refine sortPass_none_append_nan ?_ ?_
        · intro y
          exact sellCmp_of_nan rfl y
        · have hpos : 0 < ob.sell_orders.length := List.length_pos.mpr hne'
          simpa using hpos
      rw [hnone]
  · intro ib2
    cases ib2 with
    | true =>
      rw [add_order_buy_eq hbn]
      exact ⟨_, _, rfl⟩
    | false =>
      rw [add_order_sell_eq hsn]
      exact ⟨_, _, rfl⟩

/-- C8 counterexample: on a fresh (empty) book the sort of the single-element
side performs no comparison, so submitting an unorderable price does NOT
abort — refuting the unconditional "aborts the process". -/
theorem claim8_counterexample :
    ((OrderBook.new 7).add_order .nan 1 true 0).isSome = true := by
  simp [OrderBook.add_order, OrderBook.new, sortByM, sortPass, insertByM,
    OrderBook.matchOrders, matchLoop]

/-- C8 witness: a book with one resting (orderable) buy order. -/
theorem claim8_unorderable_price_witness :
    ((if true then OrderBook.buy_orders ⟨[⟨1, .num 5, 1, 0⟩], [], 2, 7⟩
      else OrderBook.sell_orders ⟨[⟨1, .num 5, 1, 0⟩], [], 2, 7⟩) ≠ []) ∧
      AllNum (OrderBook.buy_orders ⟨[⟨1, .num 5, 1, 0⟩], [], 2, 7⟩) ∧
      AllNum (OrderBook.sell_orders ⟨[⟨1, .num 5, 1, 0⟩], [], 2, 7⟩) ∧
      (OrderBook.add_order ⟨[⟨1, .num 5, 1, 0⟩], [], 2, 7⟩ .nan 1 true 0 =
          none ∧
        ∀ ib2 : Bool, ∃ ob' trs,
          OrderBook.add_order ⟨[⟨1, .num 5, 1, 0⟩], [], 2, 7⟩ (.num 3) 1 ib2 0 =
            some (ob', trs)) := by
  have hne : (if true then OrderBook.buy_orders ⟨[⟨1, .num 5, 1, 0⟩], [], 2, 7⟩
      else OrderBook.sell_orders ⟨[⟨1, .num 5, 1, 0⟩], [], 2, 7⟩) ≠ [] := by
    simp
  have hbn : AllNum (OrderBook.buy_orders ⟨[⟨1, .num 5, 1, 0⟩], [], 2, 7⟩) := by
    intro o ho
    simp only [List.mem_singleton] at ho
    subst ho
    simp
  have hsn : AllNum (OrderBook.sell_orders ⟨[⟨1, .num 5, 1, 0⟩], [], 2, 7⟩) := by
    intro o ho
    cases ho
  exact ⟨hne, hbn, hsn,
    claim8_unorderable_price ⟨[⟨1, .num 5, 1, 0⟩], [], 2, 7⟩ 1 0 3 true hne
      hbn hsn⟩

end OrderBookSpec
